import Mathlib

/-!
Shallow embedding of the changelog insertion engine of
`scripts/version_update.py` and of the version helpers of
`scripts/helpers.py`, together with theorems settling the specification
claims about them.

Strings are modelled by Lean `String` / `List Char` (ASCII fragment; the
source's regexes and `int()` are modelled on ASCII text, which covers every
input the specification speaks about).  Fallible Python code (functions
that may raise) is modelled with `Option` / `Except`; the caught-exception
wrapper of `update_changelog` is modelled by a `Bool`-returning function.
-/

namespace VersionUpdate

/-! ## Basic Python text primitives -/

/-- The ASCII whitespace characters recognised by Python's `str.strip()` and
by `int()` (space, tab, newline, carriage return, vertical tab, form feed). -/
def isSpaceChar (c : Char) : Bool :=
  c = ' ' || c = '\t' || c = '\n' || c = '\r' || c = '\x0b' || c = '\x0c'

/-- Python `str.strip()` on a character list: drop whitespace from both ends. -/
def stripChars (cs : List Char) : List Char :=
  ((cs.dropWhile isSpaceChar).reverse.dropWhile isSpaceChar).reverse

/-- Python `str.strip()` (source: `changelog_entry.strip()`, `line.strip()`). -/
def pyStrip (s : String) : String :=
  ⟨stripChars s.data⟩

/-- Python `str.split(sep)` for a one-character separator (source:
`version.split(".")`, `....split('\n')`).  Keeps empty fields, so
`splitOnChar '.' "a..b" = ["a", "", "b"]` and `splitOnChar '.' "" = [""]`. -/
def splitOnChar (sep : Char) : List Char → List (List Char)
  | [] => [[]]
  | c :: rest =>
    if c = sep then
      [] :: splitOnChar sep rest
    else
      match splitOnChar sep rest with
      | [] => [[c]]
      | g :: gs => (c :: g) :: gs

/-- Numeric value of a decimal digit character. -/
def digitVal (c : Char) : Nat :=
  c.toNat - 48

/-- Decimal value of a digit string. -/
def digitsVal (ds : List Char) : Nat :=
  ds.foldl (fun n c => 10 * n + digitVal c) 0

/-- Digit-part scanner of Python `int()`: after an initial digit, consumes
digits in which single underscores may separate digit groups (PEP 515);
returns the accumulated value, or fails on any other character. -/
def pyIntDigitsAux : Nat → List Char → Option Nat
  | acc, [] => some acc
  | acc, c :: rest =>
    if c = '_' then
      match rest with
      | [] => none
      | c2 :: rest2 =>
        if c2.isDigit then pyIntDigitsAux (10 * acc + digitVal c2) rest2 else none
    else if c.isDigit then
      pyIntDigitsAux (10 * acc + digitVal c) rest
    else
      none

/-- Nonempty digit part (with optional underscore separators) of Python
`int()`; fails on the empty string. -/
def pyIntDigits : List Char → Option Nat
  | [] => none
  | c :: rest => if c.isDigit then pyIntDigitsAux (digitVal c) rest else none

/-- Python `int(text)` on ASCII text: strips surrounding whitespace, accepts
an optional single sign, then a digit part.  Fails (raises `ValueError` in
Python) on everything else. -/
def pyIntChars (cs : List Char) : Option Int :=
  match stripChars cs with
  | [] => none
  | c :: rest =>
    if c = '+' then (pyIntDigits rest).map (fun n => (n : Int))
    else if c = '-' then (pyIntDigits rest).map (fun n => -(n : Int))
    else (pyIntDigits (c :: rest)).map (fun n => (n : Int))

/-! ## `scripts/helpers.py` -/

/-- `helpers.parse_version` (helpers.py lines 52-66): split on `"."`; raise
`ValueError` (modelled by `none`) unless exactly three parts result; convert
each part with Python `int()` (which itself raises on non-integer parts). -/
def parse_version (version : String) : Option (Int × Int × Int) :=
  match splitOnChar '.' version.data with
  | [a, b, c] =>
    match pyIntChars a, pyIntChars b, pyIntChars c with
    | some x, some y, some z => some (x, y, z)
    | _, _, _ => none
  | _ => none

/-- `helpers.increment_version` (helpers.py lines 39-50):
`major, minor, patch = map(int, version.split("."))` (raises, i.e. `none`,
unless three int-convertible parts), then `f"{major}.{minor}.{patch + 1}"`. -/
def increment_version (version : String) : Option String :=
  match splitOnChar '.' version.data with
  | [a, b, c] =>
    match pyIntChars a, pyIntChars b, pyIntChars c with
    | some major, some minor, some patch =>
      some (toString major ++ "." ++ toString minor ++ "." ++ toString (patch + 1))
    | _, _, _ => none
  | _ => none

/-! ## The entry-introducer pattern

`version_pattern = re.compile(r"^(\d+\.\d+\.\d+) \(\d{4}-\d{2}-\d{2}\)")`,
applied with `version_pattern.match(line)` (anchored at the start of the
line, trailing content unconstrained).  The greedy `\d+` runs are modelled
with `takeWhile`/`dropWhile` (no backtracking is possible since every `\d+`
is followed by a non-digit literal).  The source stores the capture group
(the `X.Y.Z` text) and later sorts by `parse_version` of it; for a string of
this shape that parse is exactly the triple of digit-run values, which the
model returns directly. -/

/-- One literal character of the pattern: consume `c` or fail. -/
def expectChar (c : Char) : List Char → Option (List Char)
  | [] => none
  | x :: r => if x = c then some r else none

/-- One `\d+` of the pattern: the (greedy) maximal nonempty digit run.
Greediness is exact here because every `\d+` of the pattern is followed by
a non-digit literal, so the regex never backtracks into a digit run. -/
def expectDigits (cs : List Char) : Option (List Char × List Char) :=
  let d := cs.takeWhile Char.isDigit
  if d.isEmpty then none else some (d, cs.dropWhile Char.isDigit)

/-- One `\d{n}` of the pattern: exactly `n` digit characters. -/
def expectDigitCount : Nat → List Char → Option (List Char)
  | 0, r => some r
  | _ + 1, [] => none
  | n + 1, x :: r => if x.isDigit then expectDigitCount n r else none

/-- `version_pattern.match` run on the text of a line: the anchored pattern
`\d+\.\d+\.\d+ \(\d{4}-\d{2}-\d{2}\)`, step by step.  Returns the parsed
capture-group values together with the unmatched remainder of the line
(`.match` leaves trailing content unconstrained). -/
def matchVersionPrefix (cs : List Char) : Option ((Nat × Nat × Nat) × List Char) :=
  Option.bind (expectDigits cs) fun p1 =>
  Option.bind (expectChar '.' p1.2) fun r2 =>
  Option.bind (expectDigits r2) fun p2 =>
  Option.bind (expectChar '.' p2.2) fun r4 =>
  Option.bind (expectDigits r4) fun p3 =>
  Option.bind (expectChar ' ' p3.2) fun r6 =>
  Option.bind (expectChar '(' r6) fun r7 =>
  Option.bind (expectDigitCount 4 r7) fun r8 =>
  Option.bind (expectChar '-' r8) fun r9 =>
  Option.bind (expectDigitCount 2 r9) fun r10 =>
  Option.bind (expectChar '-' r10) fun r11 =>
  Option.bind (expectDigitCount 2 r11) fun r12 =>
  Option.bind (expectChar ')' r12) fun r13 =>
  some ((digitsVal p1.1, digitsVal p2.1, digitsVal p3.1), r13)

/-- Model of `version_pattern.match(line)`, returning the parsed version
triple of the capture group on success (the source stores the captured
`X.Y.Z` text and later applies `parse_version` to it, which on a captured
all-digit string is exactly this triple). -/
def matchVersionLine (line : String) : Option (Nat × Nat × Nat) :=
  (matchVersionPrefix line.data).map (fun x => x.1)

/-- Modelled from the claim's words, for comparison with the code: the line
is EXACTLY the strict shape `X.Y.Z (YYYY-MM-DD)` with nothing after the
closing parenthesis except at most the line terminator. -/
def strictShapeLine (line : String) : Bool :=
  match matchVersionPrefix line.data with
  | some (_, rest) => rest == [] || rest == ['\n']
  | none => false

/-! ## `scripts/version_update.py`: `update_changelog` -/

/-- The new entry block (version_update.py lines 83-86):
`[f"{new_version} ({today})\n"]`, then one re-terminated line per line of
`changelog_entry.strip().split('\n')`, then one extra `"\n"` for spacing. -/
def mkEntryLines (new_version today changelog_entry : String) : List String :=
  (new_version ++ " (" ++ today ++ ")" ++ "\n")
    :: (splitOnChar '\n' (stripChars changelog_entry.data)).map
        (fun l => (⟨l⟩ : String) ++ "\n")
    ++ ["\n"]

/-- First pass of `update_changelog` (lines 94-103): scan adjacent line
pairs `(i, i+1)` in order; on the first pair whose concatenation satisfies
the header pattern, set `header_line_index = i + 1` (the index of the
second line of the pair).  The regex search `re.search(header_pattern, ...)`
is modelled by the boolean predicate `hp` on the concatenated text. -/
def findHeaderAux (hp : String → Bool) : List String → Nat → Option Nat
  | a :: b :: rest, i =>
    if hp (a ++ b) then some (i + 1) else findHeaderAux hp (b :: rest) (i + 1)
  | _, _ => none

/-- `header_line_index` produced by the first pass, or `none` when
`header_found` stays false. -/
def find_header (hp : String → Bool) (lines : List String) : Option Nat :=
  findHeaderAux hp lines 0

/-- Second pass of `update_changelog` (lines 109-116), walking the suffix of
`lines` starting at absolute index `i`: collect `(i, version)` for every
line matched by `version_pattern`. -/
def findEntriesAux : List String → Nat → List (Nat × (Nat × Nat × Nat))
  | [], _ => []
  | l :: ls, i =>
    match matchVersionLine l with
    | some v => (i, v) :: findEntriesAux ls (i + 1)
    | none => findEntriesAux ls (i + 1)

/-- All version entries found at indices `start, start+1, ...` of `lines`
(the source iterates `range(header_line_index + 1, len(lines))`). -/
def find_entries (lines : List String) (start : Nat) : List (Nat × (Nat × Nat × Nat)) :=
  findEntriesAux (lines.drop start) start

/-- Blank-line skip of the no-entries branch (lines 120-123): advance the
insertion index over lines whose `strip()` is empty. -/
def skipBlankAux : List String → Nat → Nat
  | [], j => j
  | l :: ls, j => if stripChars l.data = [] then skipBlankAux ls (j + 1) else j

/-- `insertion_index` for the no-entries branch, starting at absolute index
`j` of `lines`. -/
def skipBlankFrom (lines : List String) (j : Nat) : Nat :=
  skipBlankAux (lines.drop j) j

/-- End-of-entry scan (lines 136-142), walking the suffix of `lines` from
absolute index `j`: stop at the first line matched by `version_pattern`,
or at end-of-file. -/
def endOfEntryAux : List String → Nat → Nat
  | [], j => j
  | l :: ls, j => if (matchVersionLine l).isSome then j else endOfEntryAux ls (j + 1)

/-- `end_of_entry` of the source: first introducer index at or after `j`,
or `lines.length` when none exists. -/
def end_of_entry (lines : List String) (j : Nat) : Nat :=
  endOfEntryAux (lines.drop j) j

/-- Python tuple comparison on `(major, minor, patch)` triples, as used by
`sorted(..., key=lambda x: parse_version(x[1]), ...)`: numeric lexicographic
order. -/
def verLt (a b : Nat × Nat × Nat) : Bool :=
  decide (a.1 < b.1 ∨ (a.1 = b.1 ∧ (a.2.1 < b.2.1 ∨ (a.2.1 = b.2.1 ∧ a.2.2 < b.2.2))))

/-- Stable descending insertion used to model Python's stable
`sorted(versions, key=lambda x: parse_version(x[1]), reverse=True)`:
an element moves past an earlier element only when its version is strictly
greater, so entries with equal versions keep their document order. -/
def insertDescEntry (x : Nat × (Nat × Nat × Nat)) :
    List (Nat × (Nat × Nat × Nat)) → List (Nat × (Nat × Nat × Nat))
  | [] => [x]
  | y :: ys => if verLt x.2 y.2 then y :: insertDescEntry x ys else x :: y :: ys

/-- Model of line 130: `sorted(versions, key=lambda x: parse_version(x[1]),
reverse=True)` (a stable descending sort by version). -/
def sortVersionsDesc : List (Nat × (Nat × Nat × Nat)) → List (Nat × (Nat × Nat × Nat))
  | [] => []
  | x :: xs => insertDescEntry x (sortVersionsDesc xs)

/-- The pure core of `update_changelog` (version_update.py lines 83-149),
from the read lines to the updated lines.  `none` models the
`header_found == False` early return (lines 105-107); the impossible
`sorted(...)[0]` on an empty list would raise `IndexError`, be caught by the
surrounding `except`, and also yield a failure, hence the `none` on that
unreachable branch. -/
def update_changelog_lines (header_pattern : String → Bool) (changelog_entry : String)
    (new_version : String) (today : String) (lines : List String) :
    Option (List String) :=
  let new_entry_lines := mkEntryLines new_version today changelog_entry
  match find_header header_pattern lines with
  | none => none
  | some header_line_index =>
    let versions := find_entries lines (header_line_index + 1)
    match versions with
    | [] =>
      let insertion_index := skipBlankFrom lines (header_line_index + 1)
      some (lines.take insertion_index ++ new_entry_lines ++ lines.drop insertion_index)
    | _ :: _ =>
      match sortVersionsDesc versions with
      | [] => none
      | (highest_version_line, _) :: _ =>
        let insertion_index := end_of_entry lines (highest_version_line + 1)
        some (lines.take insertion_index ++ new_entry_lines ++ lines.drop insertion_index)

/-- File-level behaviour of `update_changelog` on an already-read document:
the pair (returned boolean, final file contents).  On `HeaderNotFound` the
function returns `False` before any write, leaving the file identical to the
input. -/
def update_changelog_file (header_pattern : String → Bool) (changelog_entry : String)
    (new_version : String) (today : String) (lines : List String) :
    Bool × List String :=
  match update_changelog_lines header_pattern changelog_entry new_version today lines with
  | none => (false, lines)
  | some updated => (true, updated)

/-- Whole-function behaviour of `update_changelog` (lines 64-160) at its
public interface, with the fallible file operations supplied as explicit
results: `read_result` is the outcome of the initial `readlines` (an
`IOError` is caught by the enclosing `except` and turned into `False`), and
`write_ok` is the outcome of the final write (a raising write is likewise
caught).  The function always returns a boolean and never propagates an
exception. -/
def update_changelog_result (read_result : Except Unit (List String)) (write_ok : Bool)
    (header_pattern : String → Bool) (changelog_entry : String)
    (new_version : String) (today : String) : Bool :=
  match read_result with
  | .error _ => false
  | .ok lines =>
    match update_changelog_lines header_pattern changelog_entry new_version today lines with
    | none => false
    | some _ => write_ok

/-! ## Order lemmas for `verLt` (numeric lexicographic comparison) -/

theorem verLt_irrefl (a : Nat × Nat × Nat) : verLt a a = false := by
  obtain ⟨a1, a2, a3⟩ := a
  simp [verLt]

theorem verLt_asymm {a b : Nat × Nat × Nat} (h : verLt a b = true) : verLt b a = false := by
  obtain ⟨a1, a2, a3⟩ := a
  obtain ⟨b1, b2, b3⟩ := b
  simp [verLt] at h ⊢
  omega

theorem verLt_ne {a b : Nat × Nat × Nat} (h : verLt a b = true) : a ≠ b := by
  intro he
  subst he
  rw [verLt_irrefl] at h
  exact Bool.false_ne_true h

theorem verLt_total {a b : Nat × Nat × Nat} (h1 : verLt a b = false)
    (h2 : verLt b a = false) : a = b := by
  obtain ⟨a1, a2, a3⟩ := a
  obtain ⟨b1, b2, b3⟩ := b
  simp [verLt] at h1 h2
  have e1 : a1 = b1 := by omega
  have e2 : a2 = b2 := by omega
  have e3 : a3 = b3 := by omega
  subst e1; subst e2; subst e3; rfl

theorem verLe_trans {a b c : Nat × Nat × Nat} (h1 : verLt a b = false)
    (h2 : verLt b c = false) : verLt a c = false := by
  obtain ⟨a1, a2, a3⟩ := a
  obtain ⟨b1, b2, b3⟩ := b
  obtain ⟨c1, c2, c3⟩ := c
  simp [verLt] at h1 h2 ⊢
  omega

theorem verLt_of_lt_of_le {a b c : Nat × Nat × Nat} (h1 : verLt a b = true)
    (h2 : verLt c b = false) : verLt a c = true := by
  obtain ⟨a1, a2, a3⟩ := a
  obtain ⟨b1, b2, b3⟩ := b
  obtain ⟨c1, c2, c3⟩ := c
  simp [verLt] at h1 h2 ⊢
  omega

theorem verLt_of_le_of_lt {a b c : Nat × Nat × Nat} (h1 : verLt b a = false)
    (h2 : verLt b c = true) : verLt a c = true := by
  obtain ⟨a1, a2, a3⟩ := a
  obtain ⟨b1, b2, b3⟩ := b
  obtain ⟨c1, c2, c3⟩ := c
  simp [verLt] at h1 h2 ⊢
  omega

/-! ## The first entry attaining the maximal version

Python's `sorted` is stable, and with `reverse=True` elements with equal
keys still keep their original order; hence `sorted(versions, ...)[0]` is
the first element of `versions`, in document order, whose version is
maximal.  `firstMaxEntry` expresses that selection directly (the spec's
"the first one encountered in document order at that version"); the lemmas
below prove that the head of `sortVersionsDesc` is exactly this element. -/

/-- One step of the left-to-right maximum scan: the running best is
replaced only by a strictly greater version, so ties keep the earlier
element. -/
def maxStep (best q : Nat × (Nat × Nat × Nat)) : Nat × (Nat × Nat × Nat) :=
  if verLt best.2 q.2 then q else best

/-- First element of `x :: xs` (in list order) attaining the maximal
version. -/
def firstMaxEntry (x : Nat × (Nat × Nat × Nat)) (xs : List (Nat × (Nat × Nat × Nat))) :
    Nat × (Nat × Nat × Nat) :=
  xs.foldl maxStep x

theorem maxStep_assoc (x y z : Nat × (Nat × Nat × Nat)) :
    maxStep (maxStep x y) z = maxStep x (maxStep y z) := by
  by_cases h1 : verLt x.2 y.2 = true
  · by_cases h2 : verLt y.2 z.2 = true
    · have h3 : verLt x.2 z.2 = true :=
        verLt_of_lt_of_le h1 (verLt_asymm h2)
      simp [maxStep, h1, h2, h3]
    · simp at h2
      simp [maxStep, h1, h2]
  · simp at h1
    by_cases h2 : verLt y.2 z.2 = true
    · simp [maxStep, h1, h2]
    · simp at h2
      have h3 : verLt x.2 z.2 = false := verLe_trans h1 h2
      simp [maxStep, h1, h2, h3]

theorem foldl_maxStep_comm (ws : List (Nat × (Nat × Nat × Nat)))
    (x w : Nat × (Nat × Nat × Nat)) :
    ws.foldl maxStep (maxStep x w) = maxStep x (ws.foldl maxStep w) := by
  induction ws generalizing w with
  | nil => rfl
  | cons u us ih =>
    simp only [List.foldl_cons]
    rw [maxStep_assoc, ih]

theorem maxStep_eq_or (x w : Nat × (Nat × Nat × Nat)) :
    maxStep x w = x ∨ maxStep x w = w := by
  unfold maxStep
  split
  · exact Or.inr rfl
  · exact Or.inl rfl

theorem verLt_maxStep_left (x w : Nat × (Nat × Nat × Nat)) :
    verLt (maxStep x w).2 x.2 = false := by
  by_cases h : verLt x.2 w.2 = true
  · simp only [maxStep, h, if_true]
    exact verLt_asymm h
  · simp at h
    simp only [maxStep, h, Bool.false_eq_true, if_false]
    exact verLt_irrefl _

theorem verLt_maxStep_right (x w : Nat × (Nat × Nat × Nat)) :
    verLt (maxStep x w).2 w.2 = false := by
  by_cases h : verLt x.2 w.2 = true
  · simp only [maxStep, h, if_true]
    exact verLt_irrefl _
  · simp at h
    simp only [maxStep, h, Bool.false_eq_true, if_false]

theorem firstMaxEntry_cons (x w : Nat × (Nat × Nat × Nat))
    (ws : List (Nat × (Nat × Nat × Nat))) :
    firstMaxEntry x (w :: ws) = firstMaxEntry (maxStep x w) ws := rfl

/-- The selected entry is maximal: no entry of the list has a strictly
greater version. -/
theorem verLt_firstMaxEntry (xs : List (Nat × (Nat × Nat × Nat))) :
    ∀ (x : Nat × (Nat × Nat × Nat)), ∀ q ∈ x :: xs,
      verLt (firstMaxEntry x xs).2 q.2 = false := by
  induction xs with
  | nil =>
    intro x q hq
    simp only [List.mem_singleton] at hq
    subst hq
    exact verLt_irrefl _
  | cons w ws ih =>
    intro x q hq
    rw [firstMaxEntry_cons]
    have hhead : verLt (firstMaxEntry (maxStep x w) ws).2 (maxStep x w).2 = false :=
      ih (maxStep x w) (maxStep x w) (List.mem_cons_self _ _)
    rcases List.mem_cons.mp hq with hq | hq
    · rw [hq]
      exact verLe_trans hhead (verLt_maxStep_left x w)
    · rcases List.mem_cons.mp hq with hq | hq
      · rw [hq]
        exact verLe_trans hhead (verLt_maxStep_right x w)
      · exact ih (maxStep x w) q (List.mem_cons_of_mem _ hq)

theorem firstMaxEntry_mem (xs : List (Nat × (Nat × Nat × Nat))) :
    ∀ (x : Nat × (Nat × Nat × Nat)), firstMaxEntry x xs ∈ x :: xs := by
  induction xs with
  | nil => intro x; simp [firstMaxEntry]
  | cons w ws ih =>
    intro x
    rw [firstMaxEntry_cons]
    have h := ih (maxStep x w)
    rcases List.mem_cons.mp h with h | h
    · rw [h]
      rcases maxStep_eq_or x w with he | he <;> rw [he]
      · exact List.mem_cons_self _ _
      · exact List.mem_cons_of_mem _ (List.mem_cons_self _ _)
    · exact List.mem_cons_of_mem _ (List.mem_cons_of_mem _ h)

/-- If the scan ends on an entry other than the one it started from, that
entry's version is strictly greater than the start's. -/
theorem verLt_of_firstMaxEntry_ne (xs : List (Nat × (Nat × Nat × Nat))) :
    ∀ (x : Nat × (Nat × Nat × Nat)), firstMaxEntry x xs ≠ x →
      verLt x.2 (firstMaxEntry x xs).2 = true := by
  induction xs with
  | nil => intro x h; exact absurd rfl h
  | cons w ws ih =>
    intro x h
    rw [firstMaxEntry_cons] at h ⊢
    by_cases hxw : verLt x.2 w.2 = true
    · have hw : maxStep x w = w := by simp [maxStep, hxw]
      rw [hw] at h ⊢
      have hle : verLt (firstMaxEntry w ws).2 w.2 = false :=
        verLt_firstMaxEntry ws w w (List.mem_cons_self _ _)
      exact verLt_of_lt_of_le hxw hle
    · simp at hxw
      have hx : maxStep x w = x := by simp [maxStep, hxw]
      rw [hx] at h ⊢
      exact ih x h

/-- Starting the maximum scan from a different element below the maximum
does not change the selected entry. -/
theorem firstMaxEntry_start_irrelevant (ws : List (Nat × (Nat × Nat × Nat))) :
    ∀ x y : Nat × (Nat × Nat × Nat),
      verLt x.2 (firstMaxEntry x ws).2 = true →
      verLt y.2 (firstMaxEntry x ws).2 = true →
      firstMaxEntry y ws = firstMaxEntry x ws := by
  induction ws with
  | nil =>
    intro x y hx _
    simp only [firstMaxEntry, List.foldl_nil] at hx
    rw [verLt_irrefl] at hx
    exact absurd hx (by simp)
  | cons u us ih =>
    intro x y hx hy
    rw [firstMaxEntry_cons] at hx hy ⊢
    rw [firstMaxEntry_cons]
    by_cases hxu : verLt x.2 u.2 = true
    · have hu : maxStep x u = u := by simp [maxStep, hxu]
      rw [hu] at hx hy ⊢
      by_cases hyu : verLt y.2 u.2 = true
      · rw [show maxStep y u = u by simp [maxStep, hyu]]
      · simp at hyu
        rw [show maxStep y u = y by simp [maxStep, hyu]]
        by_cases heq : firstMaxEntry u us = u
        · rw [heq] at hy
          exact absurd hy (by simp [hyu])
        · exact ih u y (verLt_of_firstMaxEntry_ne us u heq) hy
    · simp at hxu
      have hxx : maxStep x u = x := by simp [maxStep, hxu]
      rw [hxx] at hx hy ⊢
      have hstart : verLt (maxStep y u).2 (firstMaxEntry x us).2 = true := by
        rcases maxStep_eq_or y u with he | he <;> rw [he]
        · exact hy
        · exact verLt_of_le_of_lt hxu hx
      exact ih x (maxStep y u) hx hstart

/-- The selected entry is the first element of the list carrying its
(maximal) version. -/
theorem find?_firstMaxEntry (xs : List (Nat × (Nat × Nat × Nat))) :
    ∀ (x : Nat × (Nat × Nat × Nat)),
      (x :: xs).find? (fun q => q.2 == (firstMaxEntry x xs).2) =
        some (firstMaxEntry x xs) := by
  induction xs with
  | nil =>
    intro x
    simp only [firstMaxEntry, List.foldl_nil]
    exact List.find?_cons_of_pos _ (by simp)
  | cons w ws ih =>
    intro x
    rw [firstMaxEntry_cons]
    by_cases hxw : verLt x.2 w.2 = true
    · have hw : maxStep x w = w := by simp [maxStep, hxw]
      rw [hw]
      have hle : verLt (firstMaxEntry w ws).2 w.2 = false :=
        verLt_firstMaxEntry ws w w (List.mem_cons_self _ _)
      have hxr : verLt x.2 (firstMaxEntry w ws).2 = true := verLt_of_lt_of_le hxw hle
      have hne : (x.2 == (firstMaxEntry w ws).2) = false :=
        beq_eq_false_iff_ne.2 (fun he => verLt_ne hxr he)
      rw [List.find?_cons_of_neg _ (by simp [hne])]
      exact ih w
    · simp at hxw
      have hxx : maxStep x w = x := by simp [maxStep, hxw]
      rw [hxx]
      by_cases hxr : verLt x.2 (firstMaxEntry x ws).2 = true
      · have hne : (x.2 == (firstMaxEntry x ws).2) = false :=
          beq_eq_false_iff_ne.2 (fun he => verLt_ne hxr he)
        rw [List.find?_cons_of_neg _ (by simp [hne])]
        have hwr : verLt w.2 (firstMaxEntry x ws).2 = true := verLt_of_le_of_lt hxw hxr
        have hsame : firstMaxEntry w ws = firstMaxEntry x ws :=
          firstMaxEntry_start_irrelevant ws x w hxr hwr
        rw [← hsame]
        exact ih w
      · simp at hxr
        have heq : firstMaxEntry x ws = x := by
          by_contra hne
          have hlt := verLt_of_firstMaxEntry_ne ws x hne
          rw [hxr] at hlt
          exact Bool.false_ne_true hlt
        rw [heq]
        exact List.find?_cons_of_pos _ (by simp)

/-- Head of the modelled stable descending sort: the first entry, in
document order, attaining the maximal version. -/
theorem head?_insertDescEntry_cons (x y : Nat × (Nat × Nat × Nat))
    (ys : List (Nat × (Nat × Nat × Nat))) :
    (insertDescEntry x (y :: ys)).head? = some (maxStep x y) := by
  simp only [insertDescEntry, maxStep]
  split <;> rfl

theorem head?_sortVersionsDesc (x : Nat × (Nat × Nat × Nat))
    (xs : List (Nat × (Nat × Nat × Nat))) :
    (sortVersionsDesc (x :: xs)).head? = some (firstMaxEntry x xs) := by
  induction xs generalizing x with
  | nil => rfl
  | cons w ws ih =>
    have h1 := ih w
    obtain ⟨t, ht⟩ : ∃ t, sortVersionsDesc (w :: ws) = firstMaxEntry w ws :: t := by
      cases hs : sortVersionsDesc (w :: ws) with
      | nil => rw [hs] at h1; exact absurd h1 (by simp)
      | cons a t =>
        rw [hs] at h1
        simp only [List.head?_cons, Option.some.injEq] at h1
        exact ⟨t, by rw [h1]⟩
    show (insertDescEntry x (sortVersionsDesc (w :: ws))).head? = _
    rw [ht, head?_insertDescEntry_cons]
    simp only [firstMaxEntry, List.foldl_cons]
    rw [foldl_maxStep_comm]

/-! ## Characterisation of the header search -/

theorem findHeaderAux_eq_none (hp : String → Bool) :
    ∀ (ls : List String) (i : Nat),
      (∀ k a b, ls[k]? = some a → ls[k + 1]? = some b → hp (a ++ b) = false) →
      findHeaderAux hp ls i = none := by
  intro ls
  induction ls with
  | nil => intro i _; rfl
  | cons a ls ih =>
    cases ls with
    | nil => intro i _; rfl
    | cons b rest =>
      intro i h
      have hab : hp (a ++ b) = false := h 0 a b (by simp) (by simp)
      simp only [findHeaderAux, hab, Bool.false_eq_true, if_false]
      exact ih (i + 1) (fun k x y hx hy =>
        h (k + 1) x y (by simpa using hx) (by simpa using hy))

theorem findHeaderAux_eq_some_iff (hp : String → Bool) :
    ∀ (ls : List String) (i j : Nat),
      findHeaderAux hp ls i = some j ↔
        ∃ k, j = i + k + 1 ∧
          (∃ a b, ls[k]? = some a ∧ ls[k + 1]? = some b ∧ hp (a ++ b) = true) ∧
          (∀ m a b, m < k → ls[m]? = some a → ls[m + 1]? = some b →
            hp (a ++ b) = false) := by
  intro ls
  induction ls with
  | nil =>
    intro i j
    constructor
    · intro h; exact absurd h (by simp [findHeaderAux])
    · rintro ⟨k, _, ⟨a, b, ha, _, _⟩, _⟩; simp at ha
  | cons a ls ih =>
    cases ls with
    | nil =>
      intro i j
      constructor
      · intro h; exact absurd h (by simp [findHeaderAux])
      · rintro ⟨k, _, ⟨x, y, hx, hy, _⟩, _⟩
        rw [List.getElem?_cons_succ] at hy
        simp at hy
    | cons b rest =>
      intro i j
      by_cases hab : hp (a ++ b) = true
      · simp only [findHeaderAux, hab, if_true]
        constructor
        · intro h
          have hj : j = i + 1 := (Option.some.injEq _ _).mp h.symm
          exact ⟨0, by omega, ⟨a, b, by simp, by simp, hab⟩,
            fun m _ _ hm => absurd hm (Nat.not_lt_zero m)⟩
        · rintro ⟨k, hk, ⟨x, y, hx, hy, hxy⟩, hmin⟩
          cases k with
          | zero => rw [hk]
          | succ k' =>
            have h0 : hp (a ++ b) = false :=
              hmin 0 a b (Nat.succ_pos _) (by simp) (by simp)
            rw [hab] at h0
            exact absurd h0 (by simp)
      · have hab' : hp (a ++ b) = false := by
          simpa using hab
        simp only [findHeaderAux, hab', Bool.false_eq_true, if_false]
        rw [ih (i + 1) j]
        constructor
        · rintro ⟨k, hk, ⟨x, y, hx, hy, hxy⟩, hmin⟩
          refine ⟨k + 1, by omega, ⟨x, y, by simpa using hx, by simpa using hy, hxy⟩, ?_⟩
          intro m u w hm hu hw
          cases m with
          | zero =>
            have hu' : a = u := by simpa using hu
            have hw' : b = w := by simpa using hw
            rw [← hu', ← hw']
            exact hab'
          | succ m' =>
            exact hmin m' u w (Nat.lt_of_succ_lt_succ hm) (by simpa using hu)
              (by simpa using hw)
        · rintro ⟨k, hk, ⟨x, y, hx, hy, hxy⟩, hmin⟩
          cases k with
          | zero =>
            have hx' : a = x := by simpa using hx
            have hy' : b = y := by simpa using hy
            rw [← hx', ← hy'] at hxy
            rw [hxy] at hab'
            exact absurd hab' (by simp)
          | succ k' =>
            refine ⟨k', by omega, ⟨x, y, by simpa using hx, by simpa using hy, hxy⟩, ?_⟩
            intro m u w hm hu hw
            exact hmin (m + 1) u w (Nat.succ_lt_succ hm) (by simpa using hu)
              (by simpa using hw)

/-- If the header search succeeds, the returned index is in range (it is
the index of the second line of a matching pair). -/
theorem find_header_lt_length {hp : String → Bool} {lines : List String} {h : Nat}
    (hH : find_header hp lines = some h) : h < lines.length := by
  rcases (findHeaderAux_eq_some_iff hp lines 0 h).mp hH with ⟨k, hk, ⟨a, b, _, hb, _⟩, _⟩
  rcases List.getElem?_eq_some.mp hb with ⟨hlt, _⟩
  omega

/-! ## Characterisation of the supporting scans -/

theorem skipBlankAux_bounds : ∀ (ls : List String) (j : Nat),
    j ≤ skipBlankAux ls j ∧ skipBlankAux ls j ≤ j + ls.length := by
  intro ls
  induction ls with
  | nil => intro j; simp [skipBlankAux]
  | cons l ls ih =>
    intro j
    by_cases hb : stripChars l.data = []
    · have heq : skipBlankAux (l :: ls) j = skipBlankAux ls (j + 1) := by
        simp [skipBlankAux, hb]
      obtain ⟨ha, hc⟩ := ih (j + 1)
      rw [heq]
      simp only [List.length_cons]
      omega
    · have heq : skipBlankAux (l :: ls) j = j := by
        simp [skipBlankAux, hb]
      rw [heq]
      simp only [List.length_cons]
      omega

theorem endOfEntryAux_spec : ∀ (ls : List String) (j : Nat),
    j ≤ endOfEntryAux ls j ∧ endOfEntryAux ls j ≤ j + ls.length ∧
    (∀ m l, j ≤ m → m < endOfEntryAux ls j → ls[m - j]? = some l →
      matchVersionLine l = none) ∧
    (endOfEntryAux ls j = j + ls.length ∨
      ∃ l, ls[endOfEntryAux ls j - j]? = some l ∧ (matchVersionLine l).isSome = true) := by
  intro ls
  induction ls with
  | nil =>
    intro j
    refine ⟨Nat.le_refl _, by simp [endOfEntryAux], ?_, Or.inl (by simp [endOfEntryAux])⟩
    intro m l hm hm' _
    simp [endOfEntryAux] at hm'
    omega
  | cons l ls ih =>
    intro j
    by_cases hm : (matchVersionLine l).isSome = true
    · simp only [endOfEntryAux, hm, if_true]
      refine ⟨Nat.le_refl _, by simp, ?_, Or.inr ⟨l, by simp, hm⟩⟩
      intro m u h1 h2 _
      omega
    · have hm' : (matchVersionLine l).isSome = false := by simpa using hm
      simp only [endOfEntryAux, hm', Bool.false_eq_true, if_false]
      obtain ⟨ih1, ih2, ih3, ih4⟩ := ih (j + 1)
      refine ⟨by omega, by simp; omega, ?_, ?_⟩
      · intro m u h1 h2 hget
        rcases Nat.eq_or_lt_of_le h1 with h1 | h1
        · have hlu : l = u := by
            rw [← h1] at hget
            simpa using hget
          rw [← hlu]
          exact Option.not_isSome_iff_eq_none.mp (by simp [hm'])
        · have hge : j + 1 ≤ m := h1
          have : (ls[m - (j + 1)]?) = some u := by
            have harith : m - j = (m - (j + 1)) + 1 := by omega
            rw [harith] at hget
            simpa using hget
          exact ih3 m u hge h2 this
      · rcases ih4 with ih4 | ih4
        · exact Or.inl (by simp only [List.length_cons]; omega)
        · obtain ⟨u, hu, hmu⟩ := ih4
          refine Or.inr ⟨u, ?_, hmu⟩
          have harith : endOfEntryAux ls (j + 1) - j = (endOfEntryAux ls (j + 1) - (j + 1)) + 1 := by
            omega
          rw [harith]
          simpa using hu

/-- `end_of_entry` summarised at the level of the whole document: it stays
inside the document, every line strictly between the start and the result
is a non-introducer, and the result is end-of-file or the next
introducer. -/
theorem end_of_entry_spec (lines : List String) (j : Nat) (hj : j ≤ lines.length) :
    j ≤ end_of_entry lines j ∧ end_of_entry lines j ≤ lines.length ∧
    (∀ m l, j ≤ m → m < end_of_entry lines j → lines[m]? = some l →
      matchVersionLine l = none) ∧
    (end_of_entry lines j = lines.length ∨
      ∃ l, lines[end_of_entry lines j]? = some l ∧ (matchVersionLine l).isSome = true) := by
  simp only [end_of_entry]
  obtain ⟨h1, h2, h3, h4⟩ := endOfEntryAux_spec (lines.drop j) j
  have hlen : (lines.drop j).length = lines.length - j := List.length_drop j lines
  refine ⟨h1, by omega, ?_, ?_⟩
  · intro m l hm hm' hget
    refine h3 m l hm hm' ?_
    rw [List.getElem?_drop]
    have : j + (m - j) = m := by omega
    rw [this]
    exact hget
  · rcases h4 with h4 | h4
    · exact Or.inl (by omega)
    · obtain ⟨l, hl, hml⟩ := h4
      refine Or.inr ⟨l, ?_, hml⟩
      rw [List.getElem?_drop] at hl
      have harith : j + (endOfEntryAux (lines.drop j) j - j) = endOfEntryAux (lines.drop j) j := by
        omega
      rw [harith] at hl
      exact hl

theorem findEntriesAux_mem_iff : ∀ (ls : List String) (s i : Nat) (v : Nat × Nat × Nat),
    (i, v) ∈ findEntriesAux ls s ↔
      s ≤ i ∧ ∃ l, ls[i - s]? = some l ∧ matchVersionLine l = some v := by
  intro ls
  induction ls with
  | nil =>
    intro s i v
    simp [findEntriesAux]
  | cons l ls ih =>
    intro s i v
    cases hml : matchVersionLine l with
    | some w =>
      simp only [findEntriesAux, hml, List.mem_cons]
      constructor
      · rintro (h | h)
        · have hi : i = s := congrArg Prod.fst h
          have hv : v = w := congrArg Prod.snd h
          subst hi
          refine ⟨Nat.le_refl _, l, by simp, by rw [hml, hv]⟩
        · rcases (ih (s + 1) i v).mp h with ⟨hs, u, hu, hmu⟩
          refine ⟨by omega, u, ?_, hmu⟩
          have harith : i - s = (i - (s + 1)) + 1 := by omega
          rw [harith]
          simpa using hu
      · rintro ⟨hs, u, hu, hmu⟩
        rcases Nat.eq_or_lt_of_le hs with hs' | hs'
        · subst hs'
          have hlu : l = u := by simpa using hu
          rw [← hlu, hml] at hmu
          have hvw : w = v := by simpa using hmu
          exact Or.inl (by rw [← hvw])
        · refine Or.inr ((ih (s + 1) i v).mpr ⟨hs', u, ?_, hmu⟩)
          have harith : i - s = (i - (s + 1)) + 1 := by omega
          rw [harith] at hu
          simpa using hu
    | none =>
      simp only [findEntriesAux, hml]
      rw [ih (s + 1) i v]
      constructor
      · rintro ⟨hs, u, hu, hmu⟩
        refine ⟨by omega, u, ?_, hmu⟩
        have harith : i - s = (i - (s + 1)) + 1 := by omega
        rw [harith]
        simpa using hu
      · rintro ⟨hs, u, hu, hmu⟩
        rcases Nat.eq_or_lt_of_le hs with hs' | hs'
        · subst hs'
          have hlu : l = u := by simpa using hu
          rw [← hlu, hml] at hmu
          exact absurd hmu (by simp)
        · refine ⟨hs', u, ?_, hmu⟩
          have harith : i - s = (i - (s + 1)) + 1 := by omega
          rw [harith] at hu
          simpa using hu

/-- Membership in the collected entry list, at the level of the whole
document: `(i, v)` is collected exactly when line `i` lies at or after the
scan start and is matched by the introducer pattern with version `v`. -/
theorem find_entries_mem_iff (lines : List String) (s i : Nat) (v : Nat × Nat × Nat) :
    (i, v) ∈ find_entries lines s ↔
      s ≤ i ∧ ∃ l, lines[i]? = some l ∧ matchVersionLine l = some v := by
  rw [find_entries, findEntriesAux_mem_iff]
  constructor
  · rintro ⟨hs, u, hu, hmu⟩
    rw [List.getElem?_drop] at hu
    have : s + (i - s) = i := by omega
    rw [this] at hu
    exact ⟨hs, u, hu, hmu⟩
  · rintro ⟨hs, u, hu, hmu⟩
    refine ⟨hs, u, ?_, hmu⟩
    rw [List.getElem?_drop]
    have : s + (i - s) = i := by omega
    rw [this]
    exact hu

/-! ## The splice is reversible -/

theorem splice_extract {α : Type} (lines new : List α) (k : Nat) (hk : k ≤ lines.length) :
    (lines.take k ++ new ++ lines.drop k).take k ++
      (lines.take k ++ new ++ lines.drop k).drop (k + new.length) = lines := by
  have hlen : (lines.take k).length = k := by
    simp [List.length_take, Nat.min_eq_left hk]
  have hlen2 : (lines.take k ++ new).length = k + new.length := by
    simp [hlen]
  have h1 : (lines.take k ++ new ++ lines.drop k).take k = lines.take k := by
    rw [List.append_assoc]
    exact List.take_left' hlen
  have h2 : (lines.take k ++ new ++ lines.drop k).drop (k + new.length) = lines.drop k :=
    List.drop_left' hlen2
  rw [h1, h2]
  exact List.take_append_drop k lines

/-! ## Unfolding the two insertion branches -/

theorem sortVersionsDesc_cons_eq (x : Nat × (Nat × Nat × Nat))
    (xs : List (Nat × (Nat × Nat × Nat))) :
    ∃ t, sortVersionsDesc (x :: xs) = firstMaxEntry x xs :: t := by
  have h1 := head?_sortVersionsDesc x xs
  cases hs : sortVersionsDesc (x :: xs) with
  | nil => rw [hs] at h1; exact absurd h1 (by simp)
  | cons a t =>
    rw [hs] at h1
    simp only [List.head?_cons, Option.some.injEq] at h1
    exact ⟨t, by rw [h1]⟩

theorem update_changelog_lines_no_entries {hp : String → Bool} {lines : List String}
    {h : Nat} (e v t : String) (hH : find_header hp lines = some h)
    (hV : find_entries lines (h + 1) = []) :
    update_changelog_lines hp e v t lines =
      some (lines.take (skipBlankFrom lines (h + 1)) ++ mkEntryLines v t e ++
            lines.drop (skipBlankFrom lines (h + 1))) := by
  simp only [update_changelog_lines, hH, hV]

theorem update_changelog_lines_entries {hp : String → Bool} {lines : List String}
    {h : Nat} {x : Nat × (Nat × Nat × Nat)} {xs : List (Nat × (Nat × Nat × Nat))}
    (e v t : String) (hH : find_header hp lines = some h)
    (hV : find_entries lines (h + 1) = x :: xs) :
    update_changelog_lines hp e v t lines =
      some (lines.take (end_of_entry lines ((firstMaxEntry x xs).1 + 1)) ++
            mkEntryLines v t e ++
            lines.drop (end_of_entry lines ((firstMaxEntry x xs).1 + 1))) := by
  obtain ⟨t0, ht0⟩ := sortVersionsDesc_cons_eq x xs
  rcases hfm : firstMaxEntry x xs with ⟨p1, p2⟩
  rw [hfm] at ht0
  simp only [update_changelog_lines, hH, hV, ht0, hfm]

/-- The introducer index selected by the sort stays inside the document. -/
theorem firstMaxEntry_index_lt (lines : List String) (s : Nat)
    (x : Nat × (Nat × Nat × Nat)) (xs : List (Nat × (Nat × Nat × Nat)))
    (hV : find_entries lines s = x :: xs) :
    (firstMaxEntry x xs).1 < lines.length := by
  rcases hfm : firstMaxEntry x xs with ⟨p1, p2⟩
  have hmem : (p1, p2) ∈ find_entries lines s := by
    rw [hV, ← hfm]
    exact firstMaxEntry_mem xs x
  rcases (find_entries_mem_iff lines s p1 p2).mp hmem with ⟨_, l, hl, _⟩
  rcases List.getElem?_eq_some.mp hl with ⟨hlt, _⟩
  exact hlt

/-! ## Concrete sample documents used by witnesses and counterexamples -/

/-- A concrete header pattern: matches two-line text starting with a
`Changelog` title underlined by `=` signs (one instance of the configured
`header_pattern` regex search). -/
def samplePattern : String → Bool :=
  fun s => "Changelog\n=========".data.isPrefixOf s.data

/-- The document of the specification's concrete scenario. -/
def sampleDoc : List String :=
  ["Changelog\n", "=========\n", "\n", "1.0.2 (2024-01-01)\n", "- old fix\n", "\n"]

/-- The freshly formatted block of the specification's concrete scenario. -/
def sampleBlock : List String :=
  ["1.0.3 (2024-02-01)\n", "- new fix\n", "\n"]

/-- An out-of-order document: `2.0.0` appears before `1.5.0`. -/
def sampleDocOutOfOrder : List String :=
  ["Changelog\n", "=========\n", "\n", "2.0.0 (2024-01-01)\n", "- big change\n", "\n",
   "1.5.0 (2023-06-01)\n", "- old change\n", "\n"]

/-- Read directly off the claim's words: the given block occurs in the list
immediately before the given anchor line. -/
def blockImmediatelyBefore (block : List String) (anchor : String) :
    List String → Bool
  | [] => false
  | l :: ls =>
    ((l :: ls).take (block.length + 1) == block ++ [anchor]) ||
      blockImmediatelyBefore block anchor ls

/-! ## Claim theorems -/

/-- C7: when several discovered entries share the numerically highest
version, the head of the descending sort — the entry `update_changelog`
uses for end-of-body scanning — is the first of those equal-version entries
in document order: it is maximal, and `find?` (first match in list order)
of its version returns exactly it. -/
theorem claim7_equal_versions_first_in_document_order :
    ∀ (x : Nat × (Nat × Nat × Nat)) (xs : List (Nat × (Nat × Nat × Nat))),
      ∃ p, (sortVersionsDesc (x :: xs)).head? = some p ∧
        p ∈ x :: xs ∧
        (∀ q ∈ x :: xs, verLt p.2 q.2 = false) ∧
        (x :: xs).find? (fun q => q.2 == p.2) = some p :=
  fun x xs =>
    ⟨firstMaxEntry x xs, head?_sortVersionsDesc x xs, firstMaxEntry_mem xs x,
      verLt_firstMaxEntry xs x, find?_firstMaxEntry xs x⟩

/-- C9 (amended): the header search scans adjacent line pairs forward and
the first pair whose concatenation satisfies the pattern wins; it returns
the index of the SECOND line of that pair (the underline line), not the
index of the line following it — every downstream use adds one to reach
the first body line. -/
theorem claim9_amended_find_header_second_line_index :
    ∀ (hp : String → Bool) (lines : List String) (j : Nat),
      find_header hp lines = some j ↔
        ∃ i, j = i + 1 ∧
          (∃ a b, lines[i]? = some a ∧ lines[i + 1]? = some b ∧ hp (a ++ b) = true) ∧
          (∀ m a b, m < i → lines[m]? = some a → lines[m + 1]? = some b →
            hp (a ++ b) = false) := by
  intro hp lines j
  rw [find_header, findHeaderAux_eq_some_iff]
  constructor
  · rintro ⟨k, hk, hpair, hmin⟩
    exact ⟨k, by omega, hpair, hmin⟩
  · rintro ⟨i, hi, hpair, hmin⟩
    exact ⟨i, by omega, hpair, hmin⟩

/-- C9 (counterexample): on the sample document the first matching pair is
lines 0 and 1, so the claim's "index of the line immediately following the
second line of the pair" would be 2; the code returns 1, the index of the
second line itself. -/
theorem claim9_counterexample :
    find_header samplePattern sampleDoc = some 1 ∧
    samplePattern ("Changelog\n" ++ "=========\n") = true ∧
    find_header samplePattern sampleDoc ≠ some 2 := by
  refine ⟨by decide, by decide, by decide⟩

/-- C3: when no adjacent line pair's concatenation satisfies the header
pattern, `update_changelog` reports failure (`False`) and the document is
left identical to the input: no entry block is spliced in. -/
theorem claim3_header_not_found_no_mutation :
    ∀ (hp : String → Bool) (e v t : String) (lines : List String),
      (∀ k a b, lines[k]? = some a → lines[k + 1]? = some b → hp (a ++ b) = false) →
      update_changelog_file hp e v t lines = (false, lines) := by
  intro hp e v t lines h
  have hnone : find_header hp lines = none := findHeaderAux_eq_none hp lines 0 h
  simp [update_changelog_file, update_changelog_lines, hnone]

theorem claim3_witness :
    (∀ k a b, (["A\n", "B\n"] : List String)[k]? = some a →
        (["A\n", "B\n"] : List String)[k + 1]? = some b →
        (fun (_ : String) => false) (a ++ b) = false) ∧
    update_changelog_file (fun _ => false) "- x" "1.0.1" "2024-02-01" ["A\n", "B\n"] =
      (false, ["A\n", "B\n"]) :=
  ⟨fun _ _ _ _ _ => rfl,
    claim3_header_not_found_no_mutation (fun _ => false) "- x" "1.0.1" "2024-02-01"
      ["A\n", "B\n"] (fun _ _ _ _ _ => rfl)⟩

/-- C10: `update_changelog` always returns a boolean at its public
interface — `True` exactly when the read succeeded, a header was found and
the write succeeded, and `False` on every failure (read error, missing
header, write error); exceptions from the file operations are absorbed by
the enclosing handler, never propagated. -/
theorem claim10_total_boolean_interface :
    ∀ (read_result : Except Unit (List String)) (write_ok : Bool)
      (hp : String → Bool) (e v t : String),
      update_changelog_result read_result write_ok hp e v t = true ↔
        ∃ lines, read_result = Except.ok lines ∧
          (update_changelog_lines hp e v t lines).isSome = true ∧ write_ok = true := by
  intro rr wk hp e v t
  cases rr with
  | error u => simp [update_changelog_result]
  | ok lines =>
    cases hu : update_changelog_lines hp e v t lines with
    | none => simp [update_changelog_result, hu]
    | some out => simp [update_changelog_result, hu]

/-- C1: for every document whose header is found and that contains at
least one version entry, the new block is spliced exactly at the end of
the body of the entry `p` whose version is numerically highest among all
discovered entries (document order breaking ties): `p` is maximal, the
insertion index `k` is obtained by scanning forward from `p`'s introducer
line over non-introducer lines until the next introducer or end-of-file,
and the output is the input with the block inserted at `k` — regardless of
the document order of the entries. -/
theorem claim1_inserts_after_highest_version_entry :
    ∀ (lines : List String) (hp : String → Bool) (e v t : String) (h : Nat)
      (x : Nat × (Nat × Nat × Nat)) (xs : List (Nat × (Nat × Nat × Nat))),
      find_header hp lines = some h →
      find_entries lines (h + 1) = x :: xs →
      ∃ p k,
        p ∈ x :: xs ∧
        (∀ q ∈ x :: xs, verLt p.2 q.2 = false) ∧
        (x :: xs).find? (fun q => q.2 == p.2) = some p ∧
        k = end_of_entry lines (p.1 + 1) ∧
        p.1 < k ∧ k ≤ lines.length ∧
        (∀ m l, p.1 < m → m < k → lines[m]? = some l → matchVersionLine l = none) ∧
        (k = lines.length ∨ ∃ l, lines[k]? = some l ∧ (matchVersionLine l).isSome = true) ∧
        update_changelog_lines hp e v t lines =
          some (lines.take k ++ mkEntryLines v t e ++ lines.drop k) := by
  intro lines hp e v t h x xs hH hV
  have hbound : (firstMaxEntry x xs).1 < lines.length :=
    firstMaxEntry_index_lt lines (h + 1) x xs hV
  obtain ⟨e1, e2, e3, e4⟩ :=
    end_of_entry_spec lines ((firstMaxEntry x xs).1 + 1) (by omega)
  refine ⟨firstMaxEntry x xs, end_of_entry lines ((firstMaxEntry x xs).1 + 1),
    firstMaxEntry_mem xs x, verLt_firstMaxEntry xs x, find?_firstMaxEntry xs x, rfl,
    by omega, e2, ?_, e4, update_changelog_lines_entries e v t hH hV⟩
  intro m l hm1 hm2 hget
  exact e3 m l (by omega) hm2 hget

/-- C1 (witness): the out-of-order scenario — entries `2.0.0` then `1.5.0`,
new version `2.0.1`: the block lands at index 6, immediately after the
`2.0.0` block and before the `1.5.0` introducer. -/
theorem claim1_witness :
    (find_header samplePattern sampleDocOutOfOrder = some 1 ∧
      find_entries sampleDocOutOfOrder (1 + 1) = [(3, (2, 0, 0)), (6, (1, 5, 0))] ∧
      update_changelog_lines samplePattern "- follow-up fix" "2.0.1" "2024-03-01"
          sampleDocOutOfOrder =
        some ["Changelog\n", "=========\n", "\n", "2.0.0 (2024-01-01)\n", "- big change\n",
          "\n", "2.0.1 (2024-03-01)\n", "- follow-up fix\n", "\n", "1.5.0 (2023-06-01)\n",
          "- old change\n", "\n"]) ∧
    (∃ p k,
      p ∈ (3, (2, 0, 0)) :: [(6, (1, 5, 0))] ∧
      (∀ q ∈ (3, (2, 0, 0)) :: [(6, (1, 5, 0))], verLt p.2 q.2 = false) ∧
      ((3, (2, 0, 0)) :: [(6, (1, 5, 0))]).find? (fun q => q.2 == p.2) = some p ∧
      k = end_of_entry sampleDocOutOfOrder (p.1 + 1) ∧
      p.1 < k ∧ k ≤ sampleDocOutOfOrder.length ∧
      (∀ m l, p.1 < m → m < k → sampleDocOutOfOrder[m]? = some l →
        matchVersionLine l = none) ∧
      (k = sampleDocOutOfOrder.length ∨
        ∃ l, sampleDocOutOfOrder[k]? = some l ∧ (matchVersionLine l).isSome = true) ∧
      update_changelog_lines samplePattern "- follow-up fix" "2.0.1" "2024-03-01"
          sampleDocOutOfOrder =
        some (sampleDocOutOfOrder.take k ++
              mkEntryLines "2.0.1" "2024-03-01" "- follow-up fix" ++
              sampleDocOutOfOrder.drop k)) :=
  ⟨⟨by decide, by decide, by decide⟩,
    claim1_inserts_after_highest_version_entry sampleDocOutOfOrder samplePattern
      "- follow-up fix" "2.0.1" "2024-03-01" 1 (3, (2, 0, 0)) [(6, (1, 5, 0))]
      (by decide) (by decide)⟩

/-- C2 (counterexample): on the spec's concrete scenario the code does NOT
place the new `1.0.3` block immediately before the `1.0.2` introducer line:
the produced document is the input with the block appended at end-of-file
(after the `1.0.2` entry's body), and no occurrence of the block
immediately precedes the `1.0.2` line. -/
theorem claim2_counterexample :
    update_changelog_lines samplePattern "- new fix" "1.0.3" "2024-02-01" sampleDoc =
      some (sampleDoc ++ sampleBlock) ∧
    blockImmediatelyBefore sampleBlock "1.0.2 (2024-01-01)\n" (sampleDoc ++ sampleBlock) =
      false := by
  exact ⟨by decide, by decide⟩

/-- C2 (amended): on the concrete scenario the block
`["1.0.3 (2024-02-01)\n", "- new fix\n", "\n"]` is inserted immediately
AFTER the end of the `1.0.2` entry's body — here end-of-file — so the
output is exactly the input followed by the block. -/
theorem claim2_amended_block_appended_after_existing_entry :
    update_changelog_lines samplePattern "- new fix" "1.0.3" "2024-02-01" sampleDoc =
      some (["Changelog\n", "=========\n", "\n", "1.0.2 (2024-01-01)\n", "- old fix\n",
        "\n"] ++ ["1.0.3 (2024-02-01)\n", "- new fix\n", "\n"]) := by
  decide

/-- C6: every successful insertion is a single-position splice of one
contiguous block: the output is the input's prefix, the formatted block,
and the input's suffix, and removing exactly the inserted lines from the
output reproduces the input document byte-for-byte. -/
theorem claim6_round_trip_splice :
    ∀ (hp : String → Bool) (e v t : String) (lines out : List String),
      update_changelog_lines hp e v t lines = some out →
      ∃ k, k ≤ lines.length ∧
        out = lines.take k ++ mkEntryLines v t e ++ lines.drop k ∧
        out.take k ++ out.drop (k + (mkEntryLines v t e).length) = lines := by
  intro hp e v t lines out hout
  cases hH : find_header hp lines with
  | none =>
    rw [update_changelog_lines] at hout
    rw [hH] at hout
    exact absurd hout (by simp)
  | some h =>
    have hh : h < lines.length := find_header_lt_length hH
    cases hV : find_entries lines (h + 1) with
    | nil =>
      have heq := update_changelog_lines_no_entries e v t hH hV
      rw [heq] at hout
      have ho := Option.some.inj hout
      have hk : skipBlankFrom lines (h + 1) ≤ lines.length := by
        obtain ⟨b1, b2⟩ := skipBlankAux_bounds (lines.drop (h + 1)) (h + 1)
        have hld := List.length_drop (h + 1) lines
        rw [skipBlankFrom]
        omega
      exact ⟨skipBlankFrom lines (h + 1), hk, ho.symm,
        by rw [← ho]; exact splice_extract lines _ _ hk⟩
    | cons x xs =>
      have heq := update_changelog_lines_entries e v t hH hV
      rw [heq] at hout
      have ho := Option.some.inj hout
      have hbound : (firstMaxEntry x xs).1 < lines.length :=
        firstMaxEntry_index_lt lines (h + 1) x xs hV
      have hk : end_of_entry lines ((firstMaxEntry x xs).1 + 1) ≤ lines.length :=
        (end_of_entry_spec lines ((firstMaxEntry x xs).1 + 1) (by omega)).2.1
      exact ⟨end_of_entry lines ((firstMaxEntry x xs).1 + 1), hk, ho.symm,
        by rw [← ho]; exact splice_extract lines _ _ hk⟩

/-- C6 (witness): the concrete scenario's successful insertion, extracted
as a splice at index 6 (end-of-file) and reversed by removing the three
inserted lines. -/
theorem claim6_witness :
    update_changelog_lines samplePattern "- new fix" "1.0.3" "2024-02-01" sampleDoc =
      some (sampleDoc ++ sampleBlock) ∧
    ∃ k, k ≤ sampleDoc.length ∧
      sampleDoc ++ sampleBlock =
        sampleDoc.take k ++ mkEntryLines "1.0.3" "2024-02-01" "- new fix" ++
          sampleDoc.drop k ∧
      (sampleDoc ++ sampleBlock).take k ++
        (sampleDoc ++ sampleBlock).drop
          (k + (mkEntryLines "1.0.3" "2024-02-01" "- new fix").length) = sampleDoc :=
  ⟨by decide,
    claim6_round_trip_splice samplePattern "- new fix" "1.0.3" "2024-02-01" sampleDoc
      (sampleDoc ++ sampleBlock) (by decide)⟩

/-! ## Splitting on a separator: inverse and group properties -/

/-- Join character groups with a newline: the inverse of
`splitOnChar '\n'`. -/
def joinNl : List (List Char) → List Char
  | [] => []
  | [g] => g
  | g :: gs => g ++ '\n' :: joinNl gs

theorem splitOnChar_ne_nil (sep : Char) : ∀ cs : List Char, splitOnChar sep cs ≠ [] := by
  intro cs
  cases cs with
  | nil => simp [splitOnChar]
  | cons c rest =>
    by_cases hc : c = sep
    · simp [splitOnChar, hc]
    · simp only [splitOnChar, hc, if_false]
      cases splitOnChar sep rest <;> simp

theorem joinNl_splitOnChar : ∀ cs : List Char, joinNl (splitOnChar '\n' cs) = cs := by
  intro cs
  induction cs with
  | nil => rfl
  | cons c rest ih =>
    by_cases hc : c = '\n'
    · subst hc
      simp only [splitOnChar, if_pos rfl]
      cases hr : splitOnChar '\n' rest with
      | nil => exact absurd hr (splitOnChar_ne_nil _ _)
      | cons g gs =>
        rw [hr] at ih
        show joinNl ([] :: g :: gs) = '\n' :: rest
        show [] ++ '\n' :: joinNl (g :: gs) = '\n' :: rest
        rw [List.nil_append, ih]
    · simp only [splitOnChar, hc, if_false]
      cases hr : splitOnChar '\n' rest with
      | nil => exact absurd hr (splitOnChar_ne_nil _ _)
      | cons g gs =>
        rw [hr] at ih
        cases gs with
        | nil =>
          show c :: g = c :: rest
          rw [show joinNl [g] = g from rfl] at ih
          rw [ih]
        | cons g2 gs2 =>
          show (c :: g) ++ '\n' :: joinNl (g2 :: gs2) = c :: rest
          rw [List.cons_append, ← ih]
          rfl

theorem splitOnChar_not_mem (sep : Char) :
    ∀ cs : List Char, ∀ g ∈ splitOnChar sep cs, sep ∉ g := by
  intro cs
  induction cs with
  | nil =>
    intro g hg
    simp only [splitOnChar, List.mem_singleton] at hg
    subst hg
    simp
  | cons c rest ih =>
    intro g hg
    by_cases hc : c = sep
    · rw [hc] at hg
      rw [show splitOnChar sep (sep :: rest) = [] :: splitOnChar sep rest from by
        simp [splitOnChar]] at hg
      rcases List.mem_cons.mp hg with hg | hg
      · rw [hg]
        simp
      · exact ih g hg
    · simp only [splitOnChar, hc, if_false] at hg
      cases hr : splitOnChar sep rest with
      | nil => exact absurd hr (splitOnChar_ne_nil _ _)
      | cons g0 gs =>
        rw [hr] at hg
        simp only [List.mem_cons] at hg
        rcases hg with hg | hg
        · rw [hg]
          intro hmem
          rcases List.mem_cons.mp hmem with hmem | hmem
          · exact hc hmem.symm
          · exact ih g0 (by rw [hr]; exact List.mem_cons_self _ _) hmem
        · exact ih g (by rw [hr]; exact List.mem_cons_of_mem _ hg)

/-- C5 (counterexample): a body with a leading blank line.  The formatter
first strips the body, so the leading blank line is NOT preserved: the
produced block has no blank line between the introducer and the body
text, contrary to the claim. -/
theorem claim5_counterexample :
    mkEntryLines "1.0.3" "2024-02-01" "\n- new fix" =
      ["1.0.3 (2024-02-01)\n", "- new fix\n", "\n"] ∧
    mkEntryLines "1.0.3" "2024-02-01" "\n- new fix" ≠
      ["1.0.3 (2024-02-01)\n", "\n", "- new fix\n", "\n"] :=
  ⟨by decide, by decide⟩

/-- C5 (amended): the formatted block is one introducer line
`"{version} ({date})\n"`, then one newline-terminated line per line of the
body after it has been stripped of leading and trailing whitespace (so
leading and trailing blank lines are removed, while interior blank lines
are preserved as given: joining the emitted lines with newlines recovers
the stripped body exactly), then exactly one trailing blank line. -/
theorem claim5_amended_entry_block_shape :
    ∀ (v t body : String),
      ∃ parts : List (List Char),
        mkEntryLines v t body =
          (v ++ " (" ++ t ++ ")" ++ "\n")
            :: parts.map (fun l => (⟨l⟩ : String) ++ "\n") ++ ["\n"] ∧
        parts ≠ [] ∧
        (∀ p ∈ parts, '\n' ∉ p) ∧
        joinNl parts = stripChars body.data :=
  fun v t body =>
    ⟨splitOnChar '\n' (stripChars body.data), rfl,
      splitOnChar_ne_nil '\n' (stripChars body.data),
      splitOnChar_not_mem '\n' (stripChars body.data),
      joinNl_splitOnChar (stripChars body.data)⟩

/-! ## Python `int()` on all-digit strings -/

theorem isSpaceChar_eq_false_of_isDigit {c : Char} (h : c.isDigit = true) :
    isSpaceChar c = false := by
  by_contra hs
  have hs' : isSpaceChar c = true := by simpa using hs
  simp only [isSpaceChar, Bool.or_eq_true, decide_eq_true_eq] at hs'
  rcases hs' with ((((h1 | h1) | h1) | h1) | h1) | h1 <;>
    (subst h1; exact absurd h (by decide))

theorem dropWhile_isSpace_of_digits {ds : List Char}
    (h : ∀ c ∈ ds, c.isDigit = true) : ds.dropWhile isSpaceChar = ds := by
  cases ds with
  | nil => rfl
  | cons c rest =>
    have hc := isSpaceChar_eq_false_of_isDigit (h c (List.mem_cons_self _ _))
    simp [List.dropWhile_cons, hc]

theorem stripChars_of_digits {ds : List Char} (h : ∀ c ∈ ds, c.isDigit = true) :
    stripChars ds = ds := by
  unfold stripChars
  rw [dropWhile_isSpace_of_digits h,
    dropWhile_isSpace_of_digits (fun c hc => h c (List.mem_reverse.mp hc)),
    List.reverse_reverse]

theorem pyIntDigitsAux_digits : ∀ (ds : List Char) (acc : Nat),
    (∀ c ∈ ds, c.isDigit = true) →
    pyIntDigitsAux acc ds = some (ds.foldl (fun n c => 10 * n + digitVal c) acc) := by
  intro ds
  induction ds with
  | nil => intro acc _; rfl
  | cons c rest ih =>
    intro acc h
    have hd : c.isDigit = true := h c (List.mem_cons_self _ _)
    have hne : ¬c = '_' := by
      intro he
      rw [he] at hd
      exact absurd hd (by decide)
    rw [pyIntDigitsAux.eq_def]
    simp only [hne, if_false, hd, if_true, List.foldl_cons]
    exact ih _ (fun x hx => h x (List.mem_cons_of_mem _ hx))

theorem pyIntDigits_digits {ds : List Char} (hne : ds ≠ [])
    (h : ∀ c ∈ ds, c.isDigit = true) : pyIntDigits ds = some (digitsVal ds) := by
  cases ds with
  | nil => exact absurd rfl hne
  | cons c rest =>
    have hd : c.isDigit = true := h c (List.mem_cons_self _ _)
    simp only [pyIntDigits, hd, if_true]
    rw [pyIntDigitsAux_digits rest (digitVal c)
      (fun x hx => h x (List.mem_cons_of_mem _ hx))]
    simp [digitsVal]

theorem pyIntChars_digits {ds : List Char} (hne : ds ≠ [])
    (h : ∀ c ∈ ds, c.isDigit = true) :
    pyIntChars ds = some ((digitsVal ds : Int)) := by
  cases ds with
  | nil => exact absurd rfl hne
  | cons c rest =>
    have hd : c.isDigit = true := h c (List.mem_cons_self _ _)
    have hplus : ¬c = '+' := by
      intro he; rw [he] at hd; exact absurd hd (by decide)
    have hminus : ¬c = '-' := by
      intro he; rw [he] at hd; exact absurd hd (by decide)
    simp only [pyIntChars, stripChars_of_digits h]
    simp only [hplus, if_false, hminus]
    rw [pyIntDigits_digits hne h]
    rfl

/-! ## Splitting around separators that do not occur in the pieces -/

theorem splitOnChar_cons_ne {sep c : Char} (rest : List Char) (hc : ¬c = sep) :
    splitOnChar sep (c :: rest) =
      match splitOnChar sep rest with
      | [] => [[c]]
      | g :: gs => (c :: g) :: gs := by
  simp only [splitOnChar, hc, if_false]

theorem splitOnChar_of_not_mem {sep : Char} : ∀ {g : List Char}, sep ∉ g →
    splitOnChar sep g = [g] := by
  intro g
  induction g with
  | nil => intro _; rfl
  | cons c rest ih =>
    intro h
    have hc : ¬c = sep := fun he => h (List.mem_cons.mpr (Or.inl he.symm))
    have hrest : sep ∉ rest := fun hm => h (List.mem_cons_of_mem _ hm)
    simp only [splitOnChar, hc, if_false, ih hrest]

theorem splitOnChar_append {sep : Char} : ∀ {g rest : List Char}, sep ∉ g →
    splitOnChar sep (g ++ sep :: rest) = g :: splitOnChar sep rest := by
  intro g rest
  induction g with
  | nil =>
    intro _
    simp [splitOnChar]
  | cons c g' ih =>
    intro h
    have hc : ¬c = sep := fun he => h (List.mem_cons.mpr (Or.inl he.symm))
    have hg' : sep ∉ g' := fun hm => h (List.mem_cons_of_mem _ hm)
    rw [List.cons_append, splitOnChar_cons_ne _ hc, ih hg']

/-- C4 (counterexample): `parse_version` does not fail on every input
other than three canonical non-negative integers — Python's `int()`
silently accepts a sign, leading zeros, and surrounding whitespace, so
these non-canonical strings parse successfully (the first even yields a
negative component) where the claim requires `MalformedVersion`. -/
theorem claim4_counterexample :
    parse_version "-1.0.2" = some (-1, 0, 2) ∧
    parse_version "01.0.2" = some (1, 0, 2) ∧
    parse_version " 1.0.2\n" = some (1, 0, 2) :=
  ⟨by decide, by decide, by decide⟩

/-- C4 (amended): `parse_version` returns a triple exactly when the text
splits on `"."` into exactly three components each accepted by Python's
`int()` (which also admits a sign, leading zeros, surrounding whitespace
and digit-group underscores, silently coercing such non-canonical forms);
on canonical all-digit components it returns their numeric values.  In
particular `parse_version "1.0"` fails with `MalformedVersion`,
`parse_version "1.0.2" = (1,0,2)`, and incrementing the patch of `1.0.2`
yields `1.0.3` with major and minor unchanged. -/
theorem claim4_amended_parse_version_int_semantics :
    parse_version "1.0" = none ∧
    parse_version "1.0.2" = some (1, 0, 2) ∧
    increment_version "1.0.2" = some "1.0.3" ∧
    (∀ sa sb sc : List Char,
      sa ≠ [] → sb ≠ [] → sc ≠ [] →
      (∀ c ∈ sa, c.isDigit = true) → (∀ c ∈ sb, c.isDigit = true) →
      (∀ c ∈ sc, c.isDigit = true) →
      parse_version ⟨sa ++ ('.' :: (sb ++ ('.' :: sc)))⟩ =
        some ((digitsVal sa : Int), (digitsVal sb : Int), (digitsVal sc : Int))) ∧
    (∀ s : String, (parse_version s).isSome = true ↔
      ∃ a b c, splitOnChar '.' s.data = [a, b, c] ∧
        (pyIntChars a).isSome = true ∧ (pyIntChars b).isSome = true ∧
        (pyIntChars c).isSome = true) := by
  refine ⟨by decide, by decide, by decide, ?_, ?_⟩
  · intro sa sb sc h1 h2 h3 hd1 hd2 hd3
    have hna : '.' ∉ sa := fun hm => absurd (hd1 '.' hm) (by decide)
    have hnb : '.' ∉ sb := fun hm => absurd (hd2 '.' hm) (by decide)
    have hnc : '.' ∉ sc := fun hm => absurd (hd3 '.' hm) (by decide)
    have hsp : splitOnChar '.' (sa ++ ('.' :: (sb ++ ('.' :: sc)))) = [sa, sb, sc] := by
      rw [splitOnChar_append hna, splitOnChar_append hnb, splitOnChar_of_not_mem hnc]
    simp only [parse_version, hsp, pyIntChars_digits h1 hd1, pyIntChars_digits h2 hd2,
      pyIntChars_digits h3 hd3]
  · intro s
    rcases hsp : splitOnChar '.' s.data with _ | ⟨a, _ | ⟨b, _ | ⟨c, _ | ⟨d, rest⟩⟩⟩⟩
    · simp [parse_version, hsp]
    · simp [parse_version, hsp]
    · simp [parse_version, hsp]
    · cases ha : pyIntChars a with
      | none => simp [parse_version, hsp, ha]
      | some x =>
        cases hb : pyIntChars b with
        | none => simp [parse_version, hsp, ha, hb]
        | some y =>
          cases hc2 : pyIntChars c with
          | none => simp [parse_version, hsp, ha, hb, hc2]
          | some z =>
            constructor
            · intro _
              exact ⟨a, b, c, rfl, by simp [ha], by simp [hb], by simp [hc2]⟩
            · intro _
              simp [parse_version, hsp, ha, hb, hc2]
    · simp [parse_version, hsp]

theorem claim4_witness :
    parse_version ⟨['1'] ++ ('.' :: (['0'] ++ ('.' :: ['2'])))⟩ =
      some ((digitsVal ['1'] : Int), (digitsVal ['0'] : Int), (digitsVal ['2'] : Int)) :=
  claim4_amended_parse_version_int_semantics.2.2.2.1 ['1'] ['0'] ['2']
    (by decide) (by decide) (by decide) (by decide) (by decide) (by decide)

/-! ## Characterisation of the entry-introducer pattern -/

theorem isEmpty_false_of_ne_nil {l : List Char} (h : l ≠ []) : l.isEmpty = false := by
  cases l with
  | nil => exact absurd rfl h
  | cons a b => rfl

theorem takeWhile_append_not :
    ∀ (g : List Char) (c : Char) (r : List Char),
      (∀ x ∈ g, x.isDigit = true) → c.isDigit = false →
      (g ++ c :: r).takeWhile Char.isDigit = g ∧
      (g ++ c :: r).dropWhile Char.isDigit = c :: r := by
  intro g
  induction g with
  | nil =>
    intro c r _ hc
    constructor
    · simp [List.takeWhile_cons, hc]
    · simp [List.dropWhile_cons, hc]
  | cons d g' ih =>
    intro c r hg hc
    have hd : d.isDigit = true := hg d (List.mem_cons_self _ _)
    obtain ⟨ih1, ih2⟩ := ih c r (fun x hx => hg x (List.mem_cons_of_mem _ hx)) hc
    constructor
    · simp [List.takeWhile_cons, hd, ih1]
    · simp [List.dropWhile_cons, hd, ih2]

theorem expectChar_eq_some_iff (c : Char) (l r : List Char) :
    expectChar c l = some r ↔ l = c :: r := by
  cases l with
  | nil => simp [expectChar]
  | cons x xs =>
    by_cases hx : x = c
    · subst hx
      simp [expectChar]
    · simp [expectChar, hx]

theorem expectChar_self (c : Char) (r : List Char) : expectChar c (c :: r) = some r := by
  simp [expectChar]

theorem expectDigits_eq_some_parts {cs d r : List Char}
    (h : expectDigits cs = some (d, r)) :
    cs = d ++ r ∧ d ≠ [] ∧ ∀ x ∈ d, x.isDigit = true := by
  simp only [expectDigits] at h
  by_cases he : (cs.takeWhile Char.isDigit).isEmpty = true
  · rw [if_pos he] at h
    exact absurd h (by simp)
  · rw [if_neg he] at h
    have hpair := Option.some.inj h
    have hd : d = cs.takeWhile Char.isDigit := (congrArg Prod.fst hpair).symm
    have hr : r = cs.dropWhile Char.isDigit := (congrArg Prod.snd hpair).symm
    refine ⟨?_, ?_, ?_⟩
    · rw [hd, hr, List.takeWhile_append_dropWhile]
    · intro hn
      apply he
      rw [← hd, hn]
      rfl
    · intro x hx
      rw [hd] at hx
      exact List.mem_takeWhile_imp hx

theorem expectDigits_append {d : List Char} (c : Char) (r : List Char)
    (hne : d ≠ []) (hdig : ∀ x ∈ d, x.isDigit = true) (hc : c.isDigit = false) :
    expectDigits (d ++ c :: r) = some (d, c :: r) := by
  obtain ⟨h1, h2⟩ := takeWhile_append_not d c r hdig hc
  simp only [expectDigits, h1, h2, isEmpty_false_of_ne_nil hne, Bool.false_eq_true,
    if_false]

theorem expectDigitCount_parts : ∀ (n : Nat) (r r' : List Char),
    expectDigitCount n r = some r' →
    ∃ ds, r = ds ++ r' ∧ ds.length = n ∧ ∀ x ∈ ds, x.isDigit = true := by
  intro n
  induction n with
  | zero =>
    intro r r' h
    have hrr : r = r' := Option.some.inj h
    exact ⟨[], by simp [hrr], rfl, by simp⟩
  | succ n ih =>
    intro r r' h
    cases r with
    | nil => exact absurd h (by simp [expectDigitCount])
    | cons x xs =>
      simp only [expectDigitCount] at h
      by_cases hx : x.isDigit = true
      · rw [if_pos hx] at h
        obtain ⟨ds, h1, h2, h3⟩ := ih xs r' h
        refine ⟨x :: ds, by simp [h1], by simp [h2], ?_⟩
        intro y hy
        rcases List.mem_cons.mp hy with hy | hy
        · rw [hy]; exact hx
        · exact h3 y hy
      · rw [if_neg hx] at h
        exact absurd h (by simp)

theorem expectDigitCount_append : ∀ (ds r : List Char),
    (∀ x ∈ ds, x.isDigit = true) →
    expectDigitCount ds.length (ds ++ r) = some r := by
  intro ds
  induction ds with
  | nil => intro r _; rfl
  | cons x xs ih =>
    intro r h
    have hx : x.isDigit = true := h x (List.mem_cons_self _ _)
    simp only [List.length_cons, List.cons_append, expectDigitCount, hx, if_true]
    exact ih r (fun y hy => h y (List.mem_cons_of_mem _ hy))

/-- Read off the claim's (and spec's) words: the line BEGINS with the shape
`X.Y.Z (YYYY-MM-DD)` — three nonempty digit runs separated by dots, a
space, and a parenthesised date of 4-2-2 digits with hyphens — with
arbitrary trailing content, the introducer carrying the digit-run values. -/
def introducerShape (line : String) (a b c : Nat) : Prop :=
  ∃ sa sb sc sy sm sd rest : List Char,
    line.data =
      sa ++ '.' :: (sb ++ '.' :: (sc ++ ' ' :: '(' ::
        (sy ++ '-' :: (sm ++ '-' :: (sd ++ ')' :: rest))))) ∧
    sa ≠ [] ∧ sb ≠ [] ∧ sc ≠ [] ∧
    (∀ x ∈ sa, x.isDigit = true) ∧ (∀ x ∈ sb, x.isDigit = true) ∧
    (∀ x ∈ sc, x.isDigit = true) ∧
    (∀ x ∈ sy, x.isDigit = true) ∧ (∀ x ∈ sm, x.isDigit = true) ∧
    (∀ x ∈ sd, x.isDigit = true) ∧
    sy.length = 4 ∧ sm.length = 2 ∧ sd.length = 2 ∧
    a = digitsVal sa ∧ b = digitsVal sb ∧ c = digitsVal sc

theorem matchVersionPrefix_shape {cs : List Char} {a b c : Nat} {rest : List Char}
    (h : matchVersionPrefix cs = some ((a, b, c), rest)) :
    ∃ sa sb sc sy sm sd : List Char,
      cs = sa ++ '.' :: (sb ++ '.' :: (sc ++ ' ' :: '(' ::
        (sy ++ '-' :: (sm ++ '-' :: (sd ++ ')' :: rest))))) ∧
      sa ≠ [] ∧ sb ≠ [] ∧ sc ≠ [] ∧
      (∀ x ∈ sa, x.isDigit = true) ∧ (∀ x ∈ sb, x.isDigit = true) ∧
      (∀ x ∈ sc, x.isDigit = true) ∧
      (∀ x ∈ sy, x.isDigit = true) ∧ (∀ x ∈ sm, x.isDigit = true) ∧
      (∀ x ∈ sd, x.isDigit = true) ∧
      sy.length = 4 ∧ sm.length = 2 ∧ sd.length = 2 ∧
      a = digitsVal sa ∧ b = digitsVal sb ∧ c = digitsVal sc := by
  simp only [matchVersionPrefix, Option.bind_eq_some] at h
  obtain ⟨⟨sa, r1⟩, hp1, r2, hr2, ⟨sb, r3⟩, hp2, r4, hr4, ⟨sc, r5⟩, hp3, r6, hr6,
    r7, hr7, r8, hr8, r9, hr9, r10, hr10, r11, hr11, r12, hr12, r13, hr13, hfin⟩ := h
  obtain ⟨e1, n1, g1⟩ := expectDigits_eq_some_parts hp1
  obtain ⟨e2, n2, g2⟩ := expectDigits_eq_some_parts hp2
  obtain ⟨e3, n3, g3⟩ := expectDigits_eq_some_parts hp3
  have f1 : r1 = '.' :: r2 := (expectChar_eq_some_iff _ _ _).mp hr2
  have f2 : r3 = '.' :: r4 := (expectChar_eq_some_iff _ _ _).mp hr4
  have f3 : r5 = ' ' :: r6 := (expectChar_eq_some_iff _ _ _).mp hr6
  have f4 : r6 = '(' :: r7 := (expectChar_eq_some_iff _ _ _).mp hr7
  have f5 : r8 = '-' :: r9 := (expectChar_eq_some_iff _ _ _).mp hr9
  have f6 : r10 = '-' :: r11 := (expectChar_eq_some_iff _ _ _).mp hr11
  have f7 : r12 = ')' :: r13 := (expectChar_eq_some_iff _ _ _).mp hr13
  obtain ⟨sy, hy, ly, gy⟩ := expectDigitCount_parts 4 r7 r8 hr8
  obtain ⟨sm, hm, lm, gm⟩ := expectDigitCount_parts 2 r9 r10 hr10
  obtain ⟨sd, hdd, ld, gd⟩ := expectDigitCount_parts 2 r11 r12 hr12
  have hpair := Option.some.inj hfin
  have hva : a = digitsVal sa := (congrArg (fun q => q.1.1) hpair).symm
  have hvb : b = digitsVal sb := (congrArg (fun q => q.1.2.1) hpair).symm
  have hvc : c = digitsVal sc := (congrArg (fun q => q.1.2.2) hpair).symm
  have hrest : r13 = rest := congrArg (fun q => q.2) hpair
  refine ⟨sa, sb, sc, sy, sm, sd, ?_, n1, n2, n3, g1, g2, g3, gy, gm, gd, ly, lm, ld,
    hva, hvb, hvc⟩
  rw [e1, f1, e2, f2, e3, f3, f4, hy, f5, hm, f6, hdd, f7, hrest]

theorem matchVersionPrefix_of_shape (sa sb sc sy sm sd rest : List Char)
    (n1 : sa ≠ []) (n2 : sb ≠ []) (n3 : sc ≠ [])
    (g1 : ∀ x ∈ sa, x.isDigit = true) (g2 : ∀ x ∈ sb, x.isDigit = true)
    (g3 : ∀ x ∈ sc, x.isDigit = true)
    (gy : ∀ x ∈ sy, x.isDigit = true) (gm : ∀ x ∈ sm, x.isDigit = true)
    (gd : ∀ x ∈ sd, x.isDigit = true)
    (ly : sy.length = 4) (lm : sm.length = 2) (ld : sd.length = 2) :
    matchVersionPrefix
        (sa ++ '.' :: (sb ++ '.' :: (sc ++ ' ' :: '(' ::
          (sy ++ '-' :: (sm ++ '-' :: (sd ++ ')' :: rest)))))) =
      some ((digitsVal sa, digitsVal sb, digitsVal sc), rest) := by
  have e1 := expectDigits_append '.'
    (sb ++ '.' :: (sc ++ ' ' :: '(' :: (sy ++ '-' :: (sm ++ '-' :: (sd ++ ')' :: rest)))))
    n1 g1 (by decide)
  have e2 := expectDigits_append '.'
    (sc ++ ' ' :: '(' :: (sy ++ '-' :: (sm ++ '-' :: (sd ++ ')' :: rest))))
    n2 g2 (by decide)
  have e3 := expectDigits_append ' '
    ('(' :: (sy ++ '-' :: (sm ++ '-' :: (sd ++ ')' :: rest))))
    n3 g3 (by decide)
  have e4 : expectDigitCount 4 (sy ++ '-' :: (sm ++ '-' :: (sd ++ ')' :: rest))) =
      some ('-' :: (sm ++ '-' :: (sd ++ ')' :: rest))) := by
    rw [← ly]
    exact expectDigitCount_append sy _ gy
  have e5 : expectDigitCount 2 (sm ++ '-' :: (sd ++ ')' :: rest)) =
      some ('-' :: (sd ++ ')' :: rest)) := by
    rw [← lm]
    exact expectDigitCount_append sm _ gm
  have e6 : expectDigitCount 2 (sd ++ ')' :: rest) = some (')' :: rest) := by
    rw [← ld]
    exact expectDigitCount_append sd _ gd
  simp only [matchVersionPrefix, e1, Option.some_bind, expectChar_self, e2, e3, e4, e5, e6]

/-- The matcher succeeds with `(a, b, c)` exactly when the line begins with
the strict shape carrying those values. -/
theorem matchVersionLine_eq_some_iff (line : String) (a b c : Nat) :
    matchVersionLine line = some (a, b, c) ↔ introducerShape line a b c := by
  constructor
  · intro h
    rw [matchVersionLine, Option.map_eq_some'] at h
    obtain ⟨⟨v, rest⟩, hpr, hv⟩ := h
    have hv' : v = (a, b, c) := hv
    subst hv'
    obtain ⟨sa, sb, sc, sy, sm, sd, hcs, n1, n2, n3, g1, g2, g3, gy, gm, gd, ly, lm, ld,
      ea, eb, ec⟩ := matchVersionPrefix_shape hpr
    exact ⟨sa, sb, sc, sy, sm, sd, rest, hcs, n1, n2, n3, g1, g2, g3, gy, gm, gd,
      ly, lm, ld, ea, eb, ec⟩
  · rintro ⟨sa, sb, sc, sy, sm, sd, rest, hcs, n1, n2, n3, g1, g2, g3, gy, gm, gd,
      ly, lm, ld, ea, eb, ec⟩
    rw [matchVersionLine, hcs,
      matchVersionPrefix_of_shape sa sb sc sy sm sd rest n1 n2 n3 g1 g2 g3 gy gm gd
        ly lm ld]
    simp [ea, eb, ec]

/-- C8 (counterexample): the scan is a PREFIX match: a line continuing
after the date's closing parenthesis with extra content is still collected
as an entry introducer, although it is not of the strict whole-line shape
`X.Y.Z (YYYY-MM-DD)` — contradicting the claim's "exactly when". -/
theorem claim8_counterexample :
    matchVersionLine "1.0.2 (2024-01-01) extra\n" = some (1, 0, 2) ∧
    find_entries ["1.0.2 (2024-01-01) extra\n"] 0 = [(0, (1, 0, 2))] ∧
    strictShapeLine "1.0.2 (2024-01-01) extra\n" = false ∧
    strictShapeLine "1.0.2 (2024-01-01)\n" = true :=
  ⟨by decide, by decide, by decide, by decide⟩

/-- C8 (amended): the entry scan collects a line, with version values
`(a, b, c)`, exactly when a PREFIX of the line matches the strict shape
`X.Y.Z (YYYY-MM-DD)` — content after the date's closing parenthesis
(including the line terminator) is ignored; and `(i, v)` is collected
exactly when line `i`, at or after the scan start, is such a line. -/
theorem claim8_amended_introducer_collected_iff_prefix_shape :
    (∀ (line : String) (a b c : Nat),
      matchVersionLine line = some (a, b, c) ↔ introducerShape line a b c) ∧
    (∀ (lines : List String) (s i : Nat) (v : Nat × Nat × Nat),
      (i, v) ∈ find_entries lines s ↔
        s ≤ i ∧ ∃ l, lines[i]? = some l ∧ matchVersionLine l = some v) :=
  ⟨matchVersionLine_eq_some_iff, find_entries_mem_iff⟩

end VersionUpdate
